import Mathlib

/-!
# Verification of the web-scraper summarizer core

Shallow embedding of the core text pipeline of `src/scraper.py`:
sentence segmentation (`split_sentences`), tokenization with stopword
filtering (`tokenize_sentence`), frequency-based scoring and top-K
selection (`summarize_sentences`), and the post-parse logic of
`extract_sentences`.

Python strings are modelled as Lean `String` (a list of unicode
code points, matching Python's `len`/indexing semantics for the
character operations used here).  The BeautifulSoup parse itself is an
external library; `extract_sentences` is embedded over an abstract
`SoupModel` capturing exactly the data the function reads from the
parsed document (title text, paragraph texts, whole-document text).
-/

namespace Scraper

/-- ASCII whitespace, as matched by Python's `\s` and `str.strip` on
ASCII input (space, tab, newline, carriage return, vertical tab, form
feed).  Non-ASCII unicode whitespace is outside the model. -/
def pyIsSpace (c : Char) : Bool :=
  c == ' ' || c == '\t' || c == '\n' || c == '\r' || c == '\x0b' || c == '\x0c'

/-- A character matched by the regex class `[a-zA-Z]` (scraper.py line 250). -/
def isAsciiAlpha (c : Char) : Bool :=
  ('a' ≤ c && c ≤ 'z') || ('A' ≤ c && c ≤ 'Z')

/-- ASCII lowercasing, the effect of Python's `str.lower` on ASCII
characters (scraper.py line 250 applies `.lower()` before extracting
`[a-zA-Z]+` runs). -/
def asciiLower (c : Char) : Char :=
  if 'A' ≤ c && c ≤ 'Z' then Char.ofNat (c.toNat + 32) else c

/-- `re.findall(r"[a-zA-Z]+", s)`: the maximal runs of ASCII alphabetic
characters of `s`, in order.  `cur` holds the current run, reversed. -/
def wordRunsAux : List Char → List Char → List String
  | cur, [] => if cur.isEmpty then [] else [String.mk cur.reverse]
  | cur, c :: cs =>
    if isAsciiAlpha c then wordRunsAux (c :: cur) cs
    else if cur.isEmpty then wordRunsAux [] cs
    else String.mk cur.reverse :: wordRunsAux [] cs

/-- The stopword set `STOP_WORDS` of scraper.py lines 22-147. -/
def STOP_WORDS : List String :=
  ["a", "about", "above", "after", "again", "against", "all", "am", "an",
   "and", "any", "are", "as", "at", "be", "because", "been", "before",
   "being", "below", "between", "both", "but", "by", "could", "did", "do",
   "does", "doing", "down", "during", "each", "few", "for", "from",
   "further", "had", "has", "have", "having", "he", "her", "here", "hers",
   "herself", "him", "himself", "his", "how", "i", "if", "in", "into",
   "is", "it", "its", "itself", "just", "me", "more", "most", "my",
   "myself", "no", "nor", "not", "now", "of", "off", "on", "once", "only",
   "or", "other", "our", "ours", "ourselves", "out", "over", "own",
   "same", "she", "should", "so", "some", "such", "than", "that", "the",
   "their", "theirs", "them", "themselves", "then", "there", "these",
   "they", "this", "those", "through", "to", "too", "under", "until",
   "up", "very", "was", "we", "were", "what", "when", "where", "which",
   "while", "who", "whom", "why", "will", "with", "you", "your", "yours",
   "yourself", "yourselves"]

/-- `tokenize_sentence` (scraper.py lines 249-251): lowercase, extract
`[a-zA-Z]+` runs, drop stopwords.  Duplicates are retained. -/
def tokenize_sentence (sentence : String) : List String :=
  let words := wordRunsAux [] (sentence.data.map asciiLower)
  words.filter (fun w => ¬ STOP_WORDS.contains w)

/-- Python `str.strip()` on a character list: drop leading and trailing
whitespace. -/
def stripChars (l : List Char) : List Char :=
  ((l.dropWhile pyIsSpace).reverse.dropWhile pyIsSpace).reverse

/-- Python `str.strip()`. -/
def pyStrip (s : String) : String :=
  String.mk (stripChars s.data)

/-- A sentence-terminal punctuation mark, the class `[.!?]` of the
segmentation regex (scraper.py line 207). -/
def isTerminator (c : Char) : Bool :=
  c == '.' || c == '!' || c == '?'

/-- `re.split(r"(?<=[.!?])\s+", text)` (scraper.py lines 207-208):
scan the text; whenever the current character is a terminator and the
next character is whitespace, end the current fragment after the
terminator, and consume the (maximal) whitespace run that follows —
one character per step, in "skip" mode — before starting the next
fragment.  `cur` holds the current fragment, reversed; in skip mode
`cur` is always empty. -/
def splitAux : Bool → List Char → List Char → List (List Char)
  | _, cur, [] => [cur.reverse]
  | skip, cur, c :: cs =>
    if skip && pyIsSpace c then splitAux true cur cs
    else if isTerminator c && (match cs with | d :: _ => pyIsSpace d | [] => false) then
      (c :: cur).reverse :: splitAux true [] cs
    else
      splitAux false (c :: cur) cs

/-- `split_sentences` (scraper.py lines 206-210): split at the regex
matches, strip each candidate fragment, keep the non-empty ones. -/
def split_sentences (text : String) : List String :=
  ((splitAux false [] text.data).map (fun f => String.mk (stripChars f))).filter
    (fun s => s ≠ "")

/-- Joining character-list fragments with single spaces — the
character-level view of `" ".join(...)` / `String.intercalate " "`. -/
def joinSp : List (List Char) → List Char
  | [] => []
  | f :: fs => f ++ (fs.map (fun g => ' ' :: g)).flatten

/-- Normalized-text invariant, character level: every whitespace
character is a plain space, and no space is followed by whitespace or
ends the text. -/
def singleSpaced : List Char → Bool
  | [] => true
  | c :: cs =>
    (if pyIsSpace c then
      c == ' ' && (match cs with | d :: _ => !pyIsSpace d | [] => false)
     else true) && singleSpaced cs

/-- The spec's "normalized text" (§4.1): single-spaced and trimmed —
`singleSpaced` plus no leading space. -/
def normalizedText (t : String) : Bool :=
  singleSpaced t.data &&
    (match t.data with | c :: _ => !pyIsSpace c | [] => true)

/-- `re.sub(r"\s+", " ", raw)`: collapse every maximal whitespace run
to a single space. -/
def collapseRuns : List Char → List Char
  | [] => []
  | [c] => [if pyIsSpace c then ' ' else c]
  | c :: d :: cs =>
    if pyIsSpace c && pyIsSpace d then collapseRuns (d :: cs)
    else (if pyIsSpace c then ' ' else c) :: collapseRuns (d :: cs)

/-- `re.sub(r"\s+", " ", raw).strip()` (scraper.py line 198). -/
def cleanText (s : String) : String :=
  String.mk (stripChars (collapseRuns s.data))

/-- The failure cases of the core, one constructor per `raise
ScraperError(...)` site in the embedded functions.  The spec's error
taxonomy groups them into kinds (§7). -/
inductive ScraperErr where
  | notEnoughSentences
  | noWordFrequencies
  | unableToExtract
deriving DecidableEq, Repr

/-- The spec's `InsufficientContentError` kind (§7): the two failures
raised by `summarize_sentences`. -/
def isInsufficientContent : ScraperErr → Bool
  | .notEnoughSentences => true
  | .noWordFrequencies => true
  | .unableToExtract => false

/-- The spec's `ExtractionError` kind (§7): the failure raised by
`extract_sentences`. -/
def isExtractionFailure : ScraperErr → Bool
  | .unableToExtract => true
  | _ => false

/-- `PageContent` (scraper.py lines 154-161). -/
structure PageContent where
  title : String
  sentences : List String
deriving DecidableEq, Repr

/-- `PageContent.text` (scraper.py lines 159-161). -/
def PageContent.text (p : PageContent) : String :=
  String.intercalate " " p.sentences

/-- The data `extract_sentences` reads from the BeautifulSoup parse of
the HTML, after the non-content tags (script, style, noscript, header,
footer, form) have been decomposed:
* `title_text`  — `soup.find("title").text` when a title element
  exists, `none` when absent (scraper.py line 189);
* `paragraphs`  — `[p.get_text(separator=" ", strip=True) for p in
  soup.find_all("p")]` (line 192);
* `doc_text`    — `soup.get_text(separator=" ")` (line 194).
The parser itself is an external library and is not embedded. -/
structure SoupModel where
  title_text : Option String
  paragraphs : List String
  doc_text : String
deriving DecidableEq, Repr

/-- scraper.py line 190: `title_tag.text.strip() if title_tag and
title_tag.text else "Untitled page"`.  The condition is Python
truthiness of the tag and of its *untrimmed* text. -/
def computeTitle (title_text : Option String) : String :=
  match title_text with
  | some t => if t ≠ "" then pyStrip t else "Untitled page"
  | none => "Untitled page"

/-- `extract_sentences` (scraper.py lines 183-203), from the parsed
document data. -/
def extract_sentences (soup : SoupModel) : Except ScraperErr PageContent :=
  let title := computeTitle soup.title_text
  let raw_text :=
    if soup.paragraphs.isEmpty then soup.doc_text
    else String.intercalate " " soup.paragraphs
  let cleaned := cleanText raw_text
  if cleaned = "" then .error .unableToExtract
  else .ok ⟨title, split_sentences cleaned⟩

/-- `word_freq[word] += 1` on a `Counter` modelled as a function with
default value 0. -/
def counterAdd (f : String → Nat) (w : String) : String → Nat :=
  fun x => if x = w then f x + 1 else f x

/-- scraper.py lines 233-235: `unique_words = set(words); for word in
unique_words: word_freq[word] += 1`.  Set iteration order is
unspecified in Python, but the increments commute, so folding over
`words.dedup` yields the same counter. -/
def addSentenceWords (f : String → Nat) (words : List String) : String → Nat :=
  words.dedup.foldl counterAdd f

/-- The loop of scraper.py lines 228-235 building `word_freq`:
sentences whose token list is empty are skipped (`continue`),
every other sentence contributes 1 per distinct token. -/
def buildFreq : List String → (String → Nat) → (String → Nat)
  | [], f => f
  | s :: rest, f =>
    let words := tokenize_sentence s
    if words.isEmpty then buildFreq rest f
    else buildFreq rest (addSentenceWords f words)

/-- The finished `word_freq` counter for the filtered sentences. -/
def word_freq (filtered : List String) : String → Nat :=
  buildFreq filtered (fun _ => 0)

/-- scraper.py line 242: `sentence_scores[sentence] =
sum(word_freq[word] for word in words)` — the sum of the counter
values over every token occurrence of the sentence. -/
def sentence_score (filtered : List String) (s : String) : Nat :=
  ((tokenize_sentence s).map (word_freq filtered)).sum

/-- scraper.py line 219: `filtered = [s for s in sentences if len(s) >=
min_chars]`. -/
def filteredOf (sentences : List String) (min_chars : Nat) : List String :=
  sentences.filter (fun s => min_chars ≤ s.length)

/-- The comparison used by `nlargest(max_sentences, filtered,
key=sentence_scores.get)`: `a` may come before `b` in a descending
stable order when the score of `a` is at least that of `b`. -/
def scoreGe (filtered : List String) (a b : String) : Prop :=
  sentence_score filtered b ≤ sentence_score filtered a

instance (filtered : List String) : DecidableRel (scoreGe filtered) :=
  fun _ _ => Nat.decLe _ _

instance (filtered : List String) : IsTotal String (scoreGe filtered) :=
  ⟨fun _ _ => Nat.le_total _ _⟩

instance (filtered : List String) : IsTrans String (scoreGe filtered) :=
  ⟨fun _ _ _ h h' => Nat.le_trans h' h⟩

/-- The comparison used by `top_sentences.sort(key=lambda s:
sentences.index(s))` (scraper.py line 245): ascending first-occurrence
index in the original sentence list. -/
def idxLe (sentences : List String) (a b : String) : Prop :=
  sentences.indexOf a ≤ sentences.indexOf b

instance (sentences : List String) : DecidableRel (idxLe sentences) :=
  fun _ _ => Nat.decLe _ _

instance (sentences : List String) : IsTotal String (idxLe sentences) :=
  ⟨fun _ _ => Nat.le_total _ _⟩

instance (sentences : List String) : IsTrans String (idxLe sentences) :=
  ⟨fun _ _ _ h h' => Nat.le_trans h h'⟩

/-- `summarize_sentences` (scraper.py lines 213-246).

* The Counter `word_freq` is empty exactly when no filtered sentence
  contributed a word, i.e. when every filtered sentence tokenizes to
  the empty list (line 237; justified by `word_freq_zero_iff` below).
* `heapq.nlargest(n, xs, key)` is documented and implemented to equal
  `sorted(xs, key=key, reverse=True)[:n]`; Python's `sorted` with
  `reverse=True` is stable (ties keep list order), which is exactly
  `List.insertionSort` with the reflexive descending comparison.
* `list.sort` is Python's stable sort, again `insertionSort`. -/
def summarize_sentences (sentences : List String) (max_sentences min_chars : Nat) :
    Except ScraperErr (List String) :=
  let filtered := filteredOf sentences min_chars
  if filtered.isEmpty then .error .notEnoughSentences
  else if filtered.all (fun s => (tokenize_sentence s).isEmpty) then
    .error .noWordFrequencies
  else
    let top := (filtered.insertionSort (scoreGe filtered)).take max_sentences
    .ok (top.insertionSort (idxLe sentences))

/-- The spec's tie-break order (§4.4 step 3) on position-indexed
sentences: strictly higher score first; among equal scores, the
earlier position in the filtered order. -/
def rankLt (filtered : List String) (p q : Nat × String) : Prop :=
  sentence_score filtered q.2 < sentence_score filtered p.2 ∨
    (sentence_score filtered p.2 = sentence_score filtered q.2 ∧ p.1 ≤ q.1)

instance (filtered : List String) : DecidableRel (rankLt filtered) := fun _ _ => by
  unfold rankLt
  infer_instance

/-- The spec's words for the selection stage (§4.4 step 3): sort the
position-indexed filtered sentences by `rankLt` — score descending,
ties broken in favour of the earlier filtered position — take the
first `max_sentences`, drop the indices, and restore document order.
Used to state that the code's stable selection realizes this explicit,
deterministic tie-break policy. -/
def summarize_spec_ordering (sentences : List String) (max_sentences min_chars : Nat) :
    Except ScraperErr (List String) :=
  let filtered := filteredOf sentences min_chars
  if filtered.isEmpty then .error .notEnoughSentences
  else if filtered.all (fun s => (tokenize_sentence s).isEmpty) then
    .error .noWordFrequencies
  else
    let ranked := (filtered.enum.insertionSort (rankLt filtered)).map Prod.snd
    .ok ((ranked.take max_sentences).insertionSort (idxLe sentences))

/-! ## The frequency counter -/

lemma contains_iff (l : List String) (w : String) : l.contains w = true ↔ w ∈ l := by
  simp [List.contains_eq_any_beq]

lemma counterFold_apply (us : List String) (f : String → Nat) (w : String) :
    us.foldl counterAdd f w = f w + us.count w := by
  induction us generalizing f with
  | nil => simp
  | cons u us ih =>
    simp only [List.foldl_cons, ih, counterAdd]
    by_cases h : w = u
    · subst h
      simp [List.count_cons]
      omega
    · simp [List.count_cons, h, Ne.symm h]

lemma addSentenceWords_apply (f : String → Nat) (ws : List String) (w : String) :
    addSentenceWords f ws w = f w + (if w ∈ ws then 1 else 0) := by
  unfold addSentenceWords
  rw [counterFold_apply, List.count_dedup]

lemma buildFreq_apply (l : List String) (f : String → Nat) (w : String) :
    buildFreq l f w = f w + l.countP (fun t => (tokenize_sentence t).contains w) := by
  induction l generalizing f with
  | nil => simp [buildFreq]
  | cons s rest ih =>
    simp only [buildFreq]
    by_cases h : (tokenize_sentence s).isEmpty
    · have he : tokenize_sentence s = [] := List.isEmpty_iff.mp h
      rw [if_pos h, ih, List.countP_cons]
      simp [he]
    · rw [if_neg h, ih, addSentenceWords_apply, List.countP_cons]
      by_cases hw : w ∈ tokenize_sentence s
      · simp [contains_iff, hw]
        omega
      · simp [contains_iff, hw]

/-- `word_freq` is the per-sentence document frequency: the number of
filtered sentences whose token list contains the word. -/
lemma word_freq_apply (filtered : List String) (w : String) :
    word_freq filtered w = filtered.countP (fun t => (tokenize_sentence t).contains w) := by
  unfold word_freq
  rw [buildFreq_apply]
  simp

/-- The `Counter` is empty — all values zero — exactly when every
filtered sentence tokenizes to the empty list.  This justifies the
`if not word_freq` test of scraper.py line 237 being embedded as
`filtered.all (fun s => (tokenize_sentence s).isEmpty)`. -/
lemma word_freq_zero_iff (filtered : List String) :
    (∀ w, word_freq filtered w = 0) ↔
      (filtered.all (fun s => (tokenize_sentence s).isEmpty) = true) := by
  constructor
  · intro h
    rw [List.all_eq_true]
    intro s hs
    by_contra hne
    have hne' : tokenize_sentence s ≠ [] := by
      intro he
      exact hne (by simp [he])
    obtain ⟨u, us, he⟩ := List.exists_cons_of_ne_nil hne'
    have hmem : u ∈ tokenize_sentence s := by rw [he]; exact List.mem_cons_self u us
    have hpos : 0 < word_freq filtered u := by
      rw [word_freq_apply]
      rw [List.countP_pos_iff]
      exact ⟨s, hs, (contains_iff _ _).mpr hmem⟩
    have h0 := h u
    omega
  · intro h w
    rw [word_freq_apply]
    rw [List.countP_eq_zero]
    intro s hs
    have : (tokenize_sentence s).isEmpty = true := List.all_eq_true.mp h s hs
    have he : tokenize_sentence s = [] := List.isEmpty_iff.mp this
    simp [he]

/-- **C2**: the word-frequency table counts each significant word once
per filtered sentence containing it (a word occurring several times in
one sentence still contributes 1), while each sentence's score sums
the table values over every token occurrence of the sentence. -/
theorem freq_table_counts_sentences_and_scores_sum_occurrences
    (filtered : List String) (w s : String) :
    word_freq filtered w = filtered.countP (fun t => (tokenize_sentence t).contains w) ∧
    sentence_score filtered s =
      ((tokenize_sentence s).map
        (fun v => filtered.countP (fun t => (tokenize_sentence t).contains v))).sum := by
  refine ⟨word_freq_apply _ _, ?_⟩
  unfold sentence_score
  have : word_freq filtered = fun v =>
      filtered.countP (fun t => (tokenize_sentence t).contains v) := by
    funext v
    exact word_freq_apply _ _
  rw [this]

/-! ## Failure characterization -/

lemma filteredOf_eq_nil_iff (sentences : List String) (min_chars : Nat) :
    filteredOf sentences min_chars = [] ↔ ∀ s ∈ sentences, s.length < min_chars := by
  unfold filteredOf
  rw [List.filter_eq_nil_iff]
  simp only [decide_eq_true_eq, Nat.not_le]

lemma filtered_all_iff (sentences : List String) (min_chars : Nat) :
    ((filteredOf sentences min_chars).all (fun s => (tokenize_sentence s).isEmpty) = true) ↔
      ∀ s ∈ filteredOf sentences min_chars, tokenize_sentence s = [] := by
  rw [List.all_eq_true]
  constructor
  · intro h s hs
    exact List.isEmpty_iff.mp (h s hs)
  · intro h s hs
    exact List.isEmpty_iff.mpr (h s hs)

/-- **C4**: `summarize_sentences` fails — always with the
`InsufficientContentError` kind — exactly when every input sentence is
shorter than `min_chars`, or no significant word survives tokenization
across the filtered sentences; in every other case it returns a
summary.  (No partial result exists on failure: the result is a single
`Except` value.) -/
theorem summarize_failure_characterization
    (sentences : List String) (max_sentences min_chars : Nat) :
    ((∃ e, summarize_sentences sentences max_sentences min_chars = Except.error e ∧
        isInsufficientContent e = true) ↔
      ((∀ s ∈ sentences, s.length < min_chars) ∨
        (∀ s ∈ filteredOf sentences min_chars, tokenize_sentence s = []))) ∧
    ((∃ out, summarize_sentences sentences max_sentences min_chars = Except.ok out) ↔
      ¬((∀ s ∈ sentences, s.length < min_chars) ∨
        (∀ s ∈ filteredOf sentences min_chars, tokenize_sentence s = []))) := by
  simp only [summarize_sentences]
  by_cases h1 : (filteredOf sentences min_chars).isEmpty
  · rw [if_pos h1]
    have hsh : ∀ s ∈ sentences, s.length < min_chars :=
      (filteredOf_eq_nil_iff sentences min_chars).mp (List.isEmpty_iff.mp h1)
    constructor
    · constructor
      · intro _
        exact Or.inl hsh
      · intro _
        exact ⟨ScraperErr.notEnoughSentences, rfl, rfl⟩
    · constructor
      · rintro ⟨out, hout⟩
        exact absurd hout (by simp)
      · intro hn
        exact absurd (Or.inl hsh) hn
  · rw [if_neg h1]
    have hne : ¬∀ s ∈ sentences, s.length < min_chars := by
      intro hsh
      exact h1 (List.isEmpty_iff.mpr ((filteredOf_eq_nil_iff sentences min_chars).mpr hsh))
    by_cases h2 : (filteredOf sentences min_chars).all (fun s => (tokenize_sentence s).isEmpty)
    · rw [if_pos h2]
      have hall : ∀ s ∈ filteredOf sentences min_chars, tokenize_sentence s = [] :=
        (filtered_all_iff sentences min_chars).mp h2
      constructor
      · constructor
        · intro _
          exact Or.inr hall
        · intro _
          exact ⟨ScraperErr.noWordFrequencies, rfl, rfl⟩
      · constructor
        · rintro ⟨out, hout⟩
          exact absurd hout (by simp)
        · intro hn
          exact absurd (Or.inr hall) hn
    · rw [if_neg h2]
      have hnall : ¬∀ s ∈ filteredOf sentences min_chars, tokenize_sentence s = [] := by
        intro hall
        exact h2 ((filtered_all_iff sentences min_chars).mpr hall)
      constructor
      · constructor
        · rintro ⟨e, he, _⟩
          exact absurd he (by simp)
        · rintro (h | h)
          · exact absurd h hne
          · exact absurd h hnall
      · constructor
        · rintro _ (h | h)
          · exact absurd h hne
          · exact absurd h hnall
        · intro _
          exact ⟨_, rfl⟩

/-! ## The extractor -/

lemma intercalate_go_data (sep : String) (as : List String) :
    ∀ acc : String, (String.intercalate.go acc sep as).data =
      acc.data ++ (as.map (fun a => sep.data ++ a.data)).flatten := by
  induction as with
  | nil =>
    intro acc
    simp [String.intercalate.go]
  | cons a as ih =>
    intro acc
    simp only [String.intercalate.go, ih, List.map_cons, List.flatten_cons,
      String.data_append, List.append_assoc]

lemma intercalate_space_data (l : List String) :
    (String.intercalate " " l).data = joinSp (l.map String.data) := by
  cases l with
  | nil => rfl
  | cons a as =>
    show (String.intercalate.go a " " as).data = _
    rw [intercalate_go_data]
    simp only [joinSp, List.map_cons, List.map_map]
    rfl

lemma joinSp_all_nil_space (ls : List (List Char)) (h : ∀ x ∈ ls, x = []) :
    ∀ c ∈ joinSp ls, c = ' ' := by
  cases ls with
  | nil => simp [joinSp]
  | cons f fs =>
    intro c hc
    simp only [joinSp] at hc
    rw [h f (List.mem_cons_self f fs)] at hc
    simp only [List.nil_append, List.mem_flatten, List.mem_map] at hc
    obtain ⟨l, ⟨g, hg, hl⟩, hcl⟩ := hc
    rw [h g (List.mem_cons_of_mem f hg)] at hl
    rw [← hl] at hcl
    simpa using hcl

lemma collapse_strip_all_space (l : List Char) (h : ∀ c ∈ l, pyIsSpace c = true) :
    stripChars (collapseRuns l) = [] := by
  induction l using collapseRuns.induct with
  | case1 => rfl
  | case2 c =>
    have hc := h c (List.mem_singleton.mpr rfl)
    simp only [collapseRuns, hc, if_pos]
    rfl
  | case3 c d cs hcd ih =>
    rw [collapseRuns, if_pos hcd]
    exact ih fun x hx => h x (List.mem_cons_of_mem c hx)
  | case4 c d cs hcd ih =>
    exact absurd (by rw [h c (by simp), h d (by simp)]; rfl) hcd

/-- **C10**: when paragraph elements exist but all their texts are
empty, `extract_sentences` does not fall back to the whole-document
text and fails with the `ExtractionError` kind, whatever `doc_text`
contains. -/
theorem extract_fails_on_all_empty_paragraphs (soup : SoupModel)
    (hne : soup.paragraphs ≠ []) (hall : ∀ p ∈ soup.paragraphs, p = "") :
    extract_sentences soup = Except.error ScraperErr.unableToExtract := by
  simp only [extract_sentences]
  have hie : ¬ (soup.paragraphs.isEmpty = true) := fun h => hne (List.isEmpty_iff.mp h)
  rw [if_neg hie]
  have hclean : cleanText (String.intercalate " " soup.paragraphs) = "" := by
    unfold cleanText
    have hsp : ∀ c ∈ (String.intercalate " " soup.paragraphs).data, pyIsSpace c = true := by
      intro c hc
      rw [intercalate_space_data] at hc
      have : c = ' ' := joinSp_all_nil_space _ (by
        intro x hx
        rw [List.mem_map] at hx
        obtain ⟨p, hp, hpx⟩ := hx
        rw [hall p hp] at hpx
        exact hpx.symm) c hc
      rw [this]
      rfl
    rw [collapse_strip_all_space _ hsp]
  rw [if_pos hclean]

/-- Witness for C10 at a concrete input: one empty paragraph, while
the rest of the document holds plenty of text. -/
theorem extract_fails_on_all_empty_paragraphs_witness :
    ([""] : List String) ≠ [] ∧
      extract_sentences ⟨none, [""], "Plenty of text lives here."⟩ =
        Except.error ScraperErr.unableToExtract :=
  ⟨by decide,
   extract_fails_on_all_empty_paragraphs ⟨none, [""], "Plenty of text lives here."⟩
     (by decide) (by decide)⟩

/-- **C8**: the body text is the space-joined paragraph text, with the
whole-document fallback exactly when there is no paragraph element;
extraction fails with the `ExtractionError` kind exactly when the
collapsed and trimmed body text is empty, and otherwise returns the
segmentation of that cleaned text together with the computed title. -/
theorem extract_body_characterization (soup : SoupModel) :
    ((extract_sentences soup = Except.error ScraperErr.unableToExtract) ↔
      cleanText (if soup.paragraphs = [] then soup.doc_text
        else String.intercalate " " soup.paragraphs) = "") ∧
    ((∃ pc, extract_sentences soup = Except.ok pc ∧
        pc.title = computeTitle soup.title_text ∧
        pc.sentences = split_sentences (cleanText
          (if soup.paragraphs = [] then soup.doc_text
           else String.intercalate " " soup.paragraphs))) ↔
      cleanText (if soup.paragraphs = [] then soup.doc_text
        else String.intercalate " " soup.paragraphs) ≠ "") := by
  have hif : (if soup.paragraphs.isEmpty then soup.doc_text
      else String.intercalate " " soup.paragraphs) =
      (if soup.paragraphs = [] then soup.doc_text
       else String.intercalate " " soup.paragraphs) := by
    by_cases h : soup.paragraphs = []
    · rw [if_pos h, if_pos (List.isEmpty_iff.mpr h)]
    · rw [if_neg h, if_neg (fun hb => h (List.isEmpty_iff.mp hb))]
  simp only [extract_sentences, hif]
  by_cases hc : cleanText (if soup.paragraphs = [] then soup.doc_text
      else String.intercalate " " soup.paragraphs) = ""
  · rw [if_pos hc]
    constructor
    · exact ⟨fun _ => hc, fun _ => rfl⟩
    · constructor
      · rintro ⟨pc, hpc, _⟩
        exact absurd hpc (by simp)
      · intro hn
        exact absurd hc hn
  · rw [if_neg hc]
    constructor
    · constructor
      · intro h
        exact absurd h (by simp)
      · intro h
        exact absurd h hc
    · exact ⟨fun _ => hc, fun _ => ⟨_, rfl, rfl, rfl⟩⟩

lemma extract_sentences_eq (soup : SoupModel) :
    extract_sentences soup =
      if cleanText (if soup.paragraphs.isEmpty then soup.doc_text
          else String.intercalate " " soup.paragraphs) = "" then
        Except.error ScraperErr.unableToExtract
      else Except.ok ⟨computeTitle soup.title_text,
        split_sentences (cleanText (if soup.paragraphs.isEmpty then soup.doc_text
          else String.intercalate " " soup.paragraphs))⟩ := rfl

/-- **C6 counterexample**: a title element whose text is a single
space — present, truthy, but empty after trimming — produces the
empty-string title, not `"Untitled page"`, refuting the claim that a
whitespace-only title element defaults to `"Untitled page"`. -/
theorem title_whitespace_counterexample :
    extract_sentences ⟨some " ", ["Cats drink milk."], ""⟩ =
      Except.ok ⟨"", ["Cats drink milk."]⟩ ∧ ("" : String) ≠ "Untitled page" := by
  exact ⟨rfl, by decide⟩

/-- **C6 amended**: on success the title is the trimmed text of the
title element whenever the element is present with non-empty
(untrimmed) text, and `"Untitled page"` exactly when the element is
absent or its text is the empty string; a present element whose text
is non-empty whitespace therefore yields the empty string. -/
theorem extract_title_spec (soup : SoupModel) (res : PageContent)
    (h : extract_sentences soup = Except.ok res) :
    (soup.title_text = none → res.title = "Untitled page") ∧
    (soup.title_text = some "" → res.title = "Untitled page") ∧
    (∀ t, soup.title_text = some t → t ≠ "" → res.title = pyStrip t) := by
  have hres : res.title = computeTitle soup.title_text := by
    rw [extract_sentences_eq] at h
    by_cases hc : cleanText (if soup.paragraphs.isEmpty then soup.doc_text
        else String.intercalate " " soup.paragraphs) = ""
    · rw [if_pos hc] at h
      exact absurd h (by simp)
    · rw [if_neg hc] at h
      have := Except.ok.inj h
      rw [← this]
  refine ⟨?_, ?_, ?_⟩
  · intro ht
    rw [hres, ht]
    rfl
  · intro ht
    rw [hres, ht]
    rfl
  · intro t ht hne
    rw [hres, ht]
    simp only [computeTitle, if_pos hne]

/-- Witness for the amended C6 at concrete inputs: an absent title
element gives `"Untitled page"`; a padded title is trimmed. -/
theorem extract_title_spec_witness :
    ({ title := "Untitled page", sentences := ["Dogs bark loudly."] } : PageContent).title =
      "Untitled page" ∧
    ({ title := "My Page", sentences := ["Dogs bark loudly."] } : PageContent).title =
      pyStrip " My Page " :=
  ⟨(extract_title_spec ⟨none, ["Dogs bark loudly."], ""⟩
      ⟨"Untitled page", ["Dogs bark loudly."]⟩ rfl).1 rfl,
   (extract_title_spec ⟨some " My Page ", ["Dogs bark loudly."], ""⟩
      ⟨"My Page", ["Dogs bark loudly."]⟩ rfl).2.2 " My Page " rfl (by decide)⟩

/-! ## Selection: size, exhaustiveness, order -/

lemma summarize_eq (sentences : List String) (max_sentences min_chars : Nat) :
    summarize_sentences sentences max_sentences min_chars =
      (if (filteredOf sentences min_chars).isEmpty then
        Except.error ScraperErr.notEnoughSentences
      else if (filteredOf sentences min_chars).all
          (fun s => (tokenize_sentence s).isEmpty) then
        Except.error ScraperErr.noWordFrequencies
      else
        Except.ok ((((filteredOf sentences min_chars).insertionSort
            (scoreGe (filteredOf sentences min_chars))).take max_sentences).insertionSort
          (idxLe sentences))) := rfl

lemma summarize_ok_elim {sentences : List String} {max_sentences min_chars : Nat}
    {out : List String}
    (h : summarize_sentences sentences max_sentences min_chars = Except.ok out) :
    out = (((filteredOf sentences min_chars).insertionSort
        (scoreGe (filteredOf sentences min_chars))).take max_sentences).insertionSort
      (idxLe sentences) := by
  rw [summarize_eq] at h
  by_cases h1 : (filteredOf sentences min_chars).isEmpty
  · rw [if_pos h1] at h
    exact absurd h (by simp)
  · rw [if_neg h1] at h
    by_cases h2 : (filteredOf sentences min_chars).all (fun s => (tokenize_sentence s).isEmpty)
    · rw [if_pos h2] at h
      exact absurd h (by simp)
    · rw [if_neg h2] at h
      exact (Except.ok.inj h).symm

/-- **C7**: a successful summary never exceeds `max_sentences`
elements, and when `max_sentences` is at least the number of filtered
sentences the summary consists of exactly the filtered sentences. -/
theorem summarize_length_le_and_returns_all
    (sentences : List String) (max_sentences min_chars : Nat) (out : List String)
    (h : summarize_sentences sentences max_sentences min_chars = Except.ok out) :
    out.length ≤ max_sentences ∧
    ((filteredOf sentences min_chars).length ≤ max_sentences →
      List.Perm out (filteredOf sentences min_chars)) := by
  have hout := summarize_ok_elim h
  constructor
  · rw [hout, (List.perm_insertionSort _ _).length_eq, List.length_take]
    exact Nat.min_le_left _ _
  · intro hle
    rw [hout]
    have htake : ((filteredOf sentences min_chars).insertionSort
        (scoreGe (filteredOf sentences min_chars))).take max_sentences =
        (filteredOf sentences min_chars).insertionSort
          (scoreGe (filteredOf sentences min_chars)) := by
      apply List.take_of_length_le
      rw [List.length_insertionSort]
      exact hle
    rw [htake]
    exact (List.perm_insertionSort _ _).trans (List.perm_insertionSort _ _)

/-- Witness for C7 at a concrete input. -/
theorem summarize_length_le_and_returns_all_witness :
    (["cats play", "birds"] : List String).length ≤ 5 ∧
    ((filteredOf ["cats play", "birds"] 0).length ≤ 5 →
      List.Perm ["cats play", "birds"] (filteredOf ["cats play", "birds"] 0)) :=
  summarize_length_le_and_returns_all ["cats play", "birds"] 5 0
    ["cats play", "birds"] rfl

/-- **C9**: a filtered sentence all of whose tokens are stopwords (or
that has no alphabetic token) is not excluded: its score is 0, and it
appears in the summary whenever `max_sentences` covers all filtered
sentences, provided some other filtered sentence has a significant
word. -/
theorem stopword_only_sentence_scores_zero_and_is_included
    (sentences : List String) (max_sentences min_chars : Nat) (s t : String)
    (hs : s ∈ sentences) (hlen : min_chars ≤ s.length) (htok : tokenize_sentence s = [])
    (ht : t ∈ sentences) (htlen : min_chars ≤ t.length) (httok : tokenize_sentence t ≠ [])
    (hmax : (filteredOf sentences min_chars).length ≤ max_sentences) :
    sentence_score (filteredOf sentences min_chars) s = 0 ∧
    ∃ out, summarize_sentences sentences max_sentences min_chars = Except.ok out ∧
      s ∈ out := by
  have hsF : s ∈ filteredOf sentences min_chars := by
    unfold filteredOf
    rw [List.mem_filter]
    exact ⟨hs, by simpa using hlen⟩
  have htF : t ∈ filteredOf sentences min_chars := by
    unfold filteredOf
    rw [List.mem_filter]
    exact ⟨ht, by simpa using htlen⟩
  constructor
  · unfold sentence_score
    rw [htok]
    rfl
  · have h1 : ¬ (filteredOf sentences min_chars).isEmpty = true := by
      intro hie
      rw [List.isEmpty_iff.mp hie] at hsF
      exact absurd hsF (List.not_mem_nil s)
    have h2 : ¬ (filteredOf sentences min_chars).all
        (fun s => (tokenize_sentence s).isEmpty) = true := by
      intro hall
      exact httok (List.isEmpty_iff.mp (List.all_eq_true.mp hall t htF))
    refine ⟨_, by rw [summarize_eq, if_neg h1, if_neg h2], ?_⟩
    rw [List.mem_insertionSort]
    have htake : ((filteredOf sentences min_chars).insertionSort
        (scoreGe (filteredOf sentences min_chars))).take max_sentences =
        (filteredOf sentences min_chars).insertionSort
          (scoreGe (filteredOf sentences min_chars)) := by
      apply List.take_of_length_le
      rw [List.length_insertionSort]
      exact hmax
    rw [htake, List.mem_insertionSort]
    exact hsF

/-- Witness for C9 at a concrete input: `"the a"` tokenizes to nothing
but is still returned. -/
theorem stopword_only_sentence_witness :
    sentence_score (filteredOf ["the a", "cats play"] 0) "the a" = 0 ∧
    ∃ out, summarize_sentences ["the a", "cats play"] 2 0 = Except.ok out ∧
      "the a" ∈ out :=
  stopword_only_sentence_scores_zero_and_is_included ["the a", "cats play"] 2 0
    "the a" "cats play" (by decide) (by decide) (by decide)
    (by decide) (by decide) (by decide) (by decide)

/-- A list whose members all occur in `main` and whose first-occurrence
indices are strictly increasing is a sublist of `main`. -/
lemma pairwise_indexOf_sublist (main : List String) :
    ∀ out : List String, (∀ x ∈ out, x ∈ main) →
      out.Pairwise (fun a b => main.indexOf a < main.indexOf b) →
      List.Sublist out main := by
  induction main with
  | nil =>
    intro out hmem _
    cases out with
    | nil => exact List.nil_sublist []
    | cons a rest => exact absurd (hmem a (List.mem_cons_self a rest)) (List.not_mem_nil a)
  | cons c main ih =>
    intro out hmem hpw
    cases out with
    | nil => exact List.nil_sublist _
    | cons a rest =>
      by_cases hac : a = c
      · subst hac
        have hrest : ∀ x ∈ rest, x ≠ a ∧ x ∈ main := by
          intro x hx
          have hlt : List.indexOf a (a :: main) < List.indexOf x (a :: main) :=
            (List.pairwise_cons.mp hpw).1 x hx
          rw [List.indexOf_cons_self] at hlt
          have hxa : x ≠ a := by
            intro he
            rw [he, List.indexOf_cons_self] at hlt
            omega
          have hxm : x ∈ a :: main := hmem x (List.mem_cons_of_mem a hx)
          exact ⟨hxa, (List.mem_cons.mp hxm).resolve_left hxa⟩
        refine List.Sublist.cons₂ a (ih rest (fun x hx => (hrest x hx).2) ?_)
        refine ((List.pairwise_cons.mp hpw).2).imp_of_mem ?_
        intro x y hx hy hlt
        rw [List.indexOf_cons_ne main (Ne.symm (hrest x hx).1),
          List.indexOf_cons_ne main (Ne.symm (hrest y hy).1)] at hlt
        omega
      · have hall : ∀ x ∈ a :: rest, x ≠ c ∧ x ∈ main := by
          intro x hx
          rcases List.mem_cons.mp hx with he | hx'
          · subst he
            exact ⟨hac, (List.mem_cons.mp (hmem x (List.mem_cons_self x rest))).resolve_left hac⟩
          · have hlt : List.indexOf a (c :: main) < List.indexOf x (c :: main) :=
              (List.pairwise_cons.mp hpw).1 x hx'
            have hxc : x ≠ c := by
              intro he
              rw [he, List.indexOf_cons_self] at hlt
              omega
            exact ⟨hxc, (List.mem_cons.mp (hmem x (List.mem_cons_of_mem a hx'))).resolve_left hxc⟩
        refine List.Sublist.cons c (ih (a :: rest) (fun x hx => (hall x hx).2) ?_)
        refine hpw.imp_of_mem ?_
        intro x y hx hy hlt
        rw [List.indexOf_cons_ne main (Ne.symm (hall x hx).1),
          List.indexOf_cons_ne main (Ne.symm (hall y hy).1)] at hlt
        omega

lemma indexOf_inj_of_mem {l : List String} {a b : String}
    (ha : a ∈ l) (hb : b ∈ l) (heq : l.indexOf a = l.indexOf b) : a = b := by
  have h1 : l.get ⟨l.indexOf a, List.indexOf_lt_length.mpr ha⟩ = a := List.indexOf_get _
  have h2 : l.get ⟨l.indexOf b, List.indexOf_lt_length.mpr hb⟩ = b := List.indexOf_get _
  rw [← h1, ← h2]
  congr 1
  exact Fin.ext heq

/-- **C1 counterexample**: with a duplicated sentence the returned
list need not be a subsequence of the input.  Both copies of
`"cats play"` outscore `"birds"`, are selected, and are reordered to
the first occurrence's position, yielding
`["cats play", "cats play", "birds"]`, which is not a subsequence of
`["cats play", "birds", "cats play"]`. -/
theorem summarize_not_subsequence_with_duplicates :
    summarize_sentences ["cats play", "birds", "cats play"] 3 0 =
      Except.ok ["cats play", "cats play", "birds"] ∧
    ¬ List.Sublist ["cats play", "cats play", "birds"]
        ["cats play", "birds", "cats play"] :=
  ⟨rfl, by decide⟩

/-- **C1 amended**: when the input sentences are pairwise distinct,
every successful summary is a subsequence of the input — strictly
increasing input positions carry, in order, the elements of the
output.  (With duplicated sentence strings the output is instead
ordered by first-occurrence index, and the counterexample shows the
subsequence property can then fail.) -/
theorem summarize_sublist_of_nodup
    (sentences : List String) (max_sentences min_chars : Nat) (out : List String)
    (hnd : sentences.Nodup)
    (h : summarize_sentences sentences max_sentences min_chars = Except.ok out) :
    List.Sublist out sentences := by
  have hout := summarize_ok_elim h
  have hFmem : ∀ x ∈ filteredOf sentences min_chars, x ∈ sentences := by
    intro x hx
    exact (List.mem_filter.mp hx).1
  have houtmem : ∀ x ∈ out, x ∈ sentences := by
    intro x hx
    rw [hout, List.mem_insertionSort] at hx
    have hx2 := (List.take_sublist _ _).mem hx
    rw [List.mem_insertionSort] at hx2
    exact hFmem x hx2
  have hndF : (filteredOf sentences min_chars).Nodup := hnd.filter _
  have hnds : ((filteredOf sentences min_chars).insertionSort
      (scoreGe (filteredOf sentences min_chars))).Nodup :=
    (List.perm_insertionSort _ _).symm.nodup hndF
  have hndt : (((filteredOf sentences min_chars).insertionSort
      (scoreGe (filteredOf sentences min_chars))).take max_sentences).Nodup :=
    hnds.sublist (List.take_sublist _ _)
  have hndo : out.Nodup := by
    rw [hout]
    exact (List.perm_insertionSort _ _).symm.nodup hndt
  have hsorted : out.Pairwise (idxLe sentences) := by
    rw [hout]
    exact List.sorted_insertionSort (idxLe sentences) _
  have hstrict : out.Pairwise (fun a b => sentences.indexOf a < sentences.indexOf b) := by
    refine (hsorted.and hndo).imp_of_mem ?_
    intro x y hx hy hxy
    rcases hxy with ⟨hle, hne⟩
    rcases Nat.lt_or_ge (sentences.indexOf x) (sentences.indexOf y) with hlt | hge
    · exact hlt
    · exact absurd (indexOf_inj_of_mem (houtmem x hx) (houtmem y hy)
        (Nat.le_antisymm hle hge)) hne
  exact pairwise_indexOf_sublist sentences out houtmem hstrict

/-- Witness for the amended C1 at a concrete duplicate-free input. -/
theorem summarize_sublist_of_nodup_witness :
    List.Sublist ["cats play", "birds"] ["cats play", "birds"] :=
  summarize_sublist_of_nodup ["cats play", "birds"] 5 0 ["cats play", "birds"]
    (by decide) rfl

/-! ## Stability of the selection -/

lemma le_fst_of_mem_enumFrom {p : Nat × String} :
    ∀ {l : List String} {k : Nat}, p ∈ List.enumFrom k l → k ≤ p.1 := by
  intro l
  induction l with
  | nil => intro k h; exact absurd h (List.not_mem_nil p)
  | cons a l ih =>
    intro k h
    rcases List.mem_cons.mp h with he | hm
    · rw [he]
    · exact Nat.le_of_succ_le (ih hm)

lemma map_snd_orderedInsert (F : List String) (n : Nat) (a : String) :
    ∀ M : List (Nat × String), (∀ p ∈ M, n < p.1) →
      (M.orderedInsert (rankLt F) (n, a)).map Prod.snd =
        (M.map Prod.snd).orderedInsert (scoreGe F) a := by
  intro M
  induction M with
  | nil => intro _; rfl
  | cons q M ih =>
    intro hidx
    by_cases hr : rankLt F (n, a) q
    · have hs : scoreGe F a q.2 := by
        rcases hr with hlt | ⟨heq, _⟩
        · exact Nat.le_of_lt hlt
        · exact heq.ge
      simp only [List.orderedInsert, List.map_cons, if_pos hr, if_pos hs]
    · have hs : ¬ scoreGe F a q.2 := by
        intro hge
        apply hr
        rcases Nat.eq_or_lt_of_le hge with heq | hlt
        · exact Or.inr ⟨heq.symm, Nat.le_of_lt (hidx q (List.mem_cons_self q M))⟩
        · exact Or.inl hlt
      simp only [List.orderedInsert, List.map_cons, if_neg hr, if_neg hs]
      rw [ih (fun p hp => hidx p (List.mem_cons_of_mem q hp))]

/-- The code's stable descending sort of the filtered sentences equals
the spec's explicit (score desc, earlier-position-first) sort of the
position-indexed sentences, with the indices erased. -/
lemma map_snd_insertionSort_enumFrom (F : List String) :
    ∀ (l : List String) (n : Nat),
      ((List.enumFrom n l).insertionSort (rankLt F)).map Prod.snd =
        l.insertionSort (scoreGe F) := by
  intro l
  induction l with
  | nil => intro n; rfl
  | cons a l ih =>
    intro n
    simp only [List.enumFrom, List.insertionSort]
    rw [map_snd_orderedInsert F n a _ ?_, ih (n + 1)]
    intro p hp
    have hm : p ∈ List.enumFrom (n + 1) l :=
      (List.perm_insertionSort _ _).mem_iff.mp hp
    exact Nat.lt_of_succ_le (le_fst_of_mem_enumFrom hm)

lemma summarize_spec_ordering_eq (sentences : List String) (max_sentences min_chars : Nat) :
    summarize_spec_ordering sentences max_sentences min_chars =
      (if (filteredOf sentences min_chars).isEmpty then
        Except.error ScraperErr.notEnoughSentences
      else if (filteredOf sentences min_chars).all
          (fun s => (tokenize_sentence s).isEmpty) then
        Except.error ScraperErr.noWordFrequencies
      else
        Except.ok (((((filteredOf sentences min_chars).enum.insertionSort
            (rankLt (filteredOf sentences min_chars))).map Prod.snd).take
          max_sentences).insertionSort (idxLe sentences))) := rfl

/-- **C3**: selection is deterministic — identical inputs give
identical output — and stable with respect to the filtered order:
`summarize_sentences` coincides with `summarize_spec_ordering`, the
pipeline that sorts the position-indexed filtered sentences by the
tie-free order `rankLt` (higher score first; among equal scores the
earlier filtered position first). -/
theorem summarize_deterministic_and_stable
    (sentences : List String) (max_sentences min_chars : Nat) :
    summarize_sentences sentences max_sentences min_chars =
      summarize_sentences sentences max_sentences min_chars ∧
    summarize_sentences sentences max_sentences min_chars =
      summarize_spec_ordering sentences max_sentences min_chars := by
  refine ⟨rfl, ?_⟩
  rw [summarize_eq, summarize_spec_ordering_eq]
  have he : ((filteredOf sentences min_chars).enum.insertionSort
      (rankLt (filteredOf sentences min_chars))).map Prod.snd =
      (filteredOf sentences min_chars).insertionSort
        (scoreGe (filteredOf sentences min_chars)) :=
    map_snd_insertionSort_enumFrom _ _ 0
  rw [he]

/-! ## Segmentation: round trip on normalized text -/

lemma singleSpaced_tail {c : Char} {cs : List Char} (h : singleSpaced (c :: cs) = true) :
    singleSpaced cs = true := by
  simp only [singleSpaced, Bool.and_eq_true] at h
  exact h.2

lemma singleSpaced_space {c : Char} {cs : List Char} (h : singleSpaced (c :: cs) = true)
    (hc : pyIsSpace c = true) :
    c = ' ' ∧ ∃ d ds, cs = d :: ds ∧ pyIsSpace d = false := by
  simp only [singleSpaced, Bool.and_eq_true] at h
  obtain ⟨h1, _⟩ := h
  rw [if_pos hc, Bool.and_eq_true] at h1
  obtain ⟨hc', hcs⟩ := h1
  refine ⟨by simpa using hc', ?_⟩
  cases cs with
  | nil => simp at hcs
  | cons d ds =>
    refine ⟨d, ds, rfl, ?_⟩
    simpa using hcs

lemma singleSpaced_single {c : Char} (h : singleSpaced [c] = true) :
    pyIsSpace c = false := by
  by_contra hc
  rw [Bool.not_eq_false] at hc
  obtain ⟨_, d, ds, hds, _⟩ := singleSpaced_space h hc
  exact absurd hds (by simp)

lemma term_not_space {c : Char} (h : isTerminator c = true) : pyIsSpace c = false := by
  simp only [isTerminator, Bool.or_eq_true, beq_iff_eq] at h
  rcases h with (h | h) | h <;> subst h <;> decide

lemma splitAux_ne_nil (skip : Bool) (cur rest : List Char) :
    splitAux skip cur rest ≠ [] := by
  induction skip, cur, rest using splitAux.induct with
  | case1 skip cur => simp [splitAux]
  | case2 skip cur c cs h ih => simpa [splitAux, h] using ih
  | case3 skip cur c cs h1 h2 ih => simp [splitAux, h1, h2]
  | case4 skip cur c cs h1 h2 ih => simpa [splitAux, h1, h2] using ih

lemma joinSp_cons_ne (f : List Char) (fs : List (List Char)) (h : fs ≠ []) :
    joinSp (f :: fs) = f ++ ' ' :: joinSp fs := by
  cases fs with
  | nil => exact absurd rfl h
  | cons g gs => simp [joinSp]

/-- The fragments of `splitAux`, joined back with single spaces,
reproduce the unscanned text exactly (on single-spaced text): each
consumed separator is a single space.  In skip mode one leading space
of `rest` has already been accounted for by the emitted separator. -/
lemma joinSp_splitAux (skip : Bool) (cur rest : List Char) :
    singleSpaced rest = true →
    joinSp (splitAux skip cur rest) =
      cur.reverse ++
        (if (skip && (match rest with | c :: _ => pyIsSpace c | [] => false)) = true then
          rest.tail
        else rest) := by
  induction skip, cur, rest using splitAux.induct with
  | case1 skip cur =>
    intro _
    rw [splitAux.eq_1]
    simp [joinSp]
  | case2 skip cur c cs hcond ih =>
    intro hss
    obtain ⟨hskip, hc⟩ : skip = true ∧ pyIsSpace c = true := by simpa using hcond
    obtain ⟨hceq, d, ds, hds, hd⟩ := singleSpaced_space hss hc
    subst hds
    rw [splitAux.eq_2, if_pos hcond, ih (singleSpaced_tail hss)]
    simp [hcond, hd]
  | case3 skip cur c cs hcond1 hcond2 ih =>
    intro hss
    cases cs with
    | nil => exact absurd hcond2 (by simp)
    | cons d ds =>
      obtain ⟨hterm, hd⟩ : isTerminator c = true ∧ pyIsSpace d = true := by
        simpa using hcond2
      obtain ⟨hdeq, e, es, hes, he⟩ := singleSpaced_space (singleSpaced_tail hss) hd
      rw [splitAux.eq_2, if_neg hcond1,
        if_pos (show (isTerminator c && pyIsSpace d) = true by simp [hterm, hd])]
      rw [joinSp_cons_ne _ _ (splitAux_ne_nil true [] (d :: ds))]
      rw [ih (singleSpaced_tail hss)]
      subst hdeq
      simp [hd, hcond1, List.append_assoc]
  | case4 skip cur c cs hcond1 hcond2 ih =>
    intro hss
    cases cs with
    | nil =>
      rw [splitAux.eq_3, if_neg hcond1,
        if_neg (show ¬ (isTerminator c && false) = true by simp)]
      rw [splitAux.eq_1]
      simp [joinSp, hcond1]
    | cons d ds =>
      have hnd : ¬ (isTerminator c && pyIsSpace d) = true := fun hx => hcond2 hx
      rw [splitAux.eq_2, if_neg hcond1, if_neg hnd]
      rw [ih (singleSpaced_tail hss)]
      simp [hcond1, List.append_assoc]

lemma dropWhile_eq_self_of_head (l : List Char)
    (h : ∀ hne : l ≠ [], pyIsSpace (l.head hne) = false) :
    l.dropWhile pyIsSpace = l := by
  cases l with
  | nil => rfl
  | cons c cs =>
    have hc := h (List.cons_ne_nil c cs)
    rw [List.head_cons] at hc
    simp [List.dropWhile_cons, hc]

lemma strip_reverse_noop (fr : List Char)
    (hh : ∀ hne : fr ≠ [], pyIsSpace (fr.head hne) = false)
    (hl : ∀ hne : fr ≠ [], pyIsSpace (fr.getLast hne) = false) :
    stripChars fr.reverse = fr.reverse := by
  unfold stripChars
  have h1 : fr.reverse.dropWhile pyIsSpace = fr.reverse := by
    apply dropWhile_eq_self_of_head
    intro hne
    rw [List.head_reverse]
    exact hl (by simpa using hne)
  rw [h1, List.reverse_reverse, dropWhile_eq_self_of_head fr hh]

/-- Every fragment produced by `splitAux` on normalized text is
already stripped, and is non-empty except for the degenerate
initial-state-on-empty-input fragment. -/
lemma splitAux_frags (skip : Bool) (cur rest : List Char) :
    singleSpaced rest = true →
    (cur = [] → skip = false → ∀ c cs, rest = c :: cs → pyIsSpace c = false) →
    (∀ h : cur ≠ [], pyIsSpace (cur.getLast h) = false) →
    (rest = [] → ∀ h : cur ≠ [], pyIsSpace (cur.head h) = false) →
    ∀ f ∈ splitAux skip cur rest,
      stripChars f = f ∧ (f = [] → cur = [] ∧ rest = []) := by
  induction skip, cur, rest using splitAux.induct with
  | case1 skip cur =>
    intro _ _ hlast hhead f hf
    rw [splitAux.eq_1, List.mem_singleton] at hf
    subst hf
    constructor
    · by_cases hc : cur = []
      · subst hc
        rfl
      · exact strip_reverse_noop cur (fun hne => hhead rfl hne) hlast
    · intro hfe
      rw [List.reverse_eq_nil_iff] at hfe
      exact ⟨hfe, rfl⟩
  | case2 skip cur c cs hcond ih =>
    intro hss h3 h4 h5 f hf
    obtain ⟨hskip, hc⟩ : skip = true ∧ pyIsSpace c = true := by simpa using hcond
    obtain ⟨hceq, d, ds, hds, hd⟩ := singleSpaced_space hss hc
    subst hds
    rw [splitAux.eq_2, if_pos hcond] at hf
    have h3' : cur = [] → true = false → ∀ e es, d :: ds = e :: es → pyIsSpace e = false :=
      fun _ hx => absurd hx (by simp)
    have h5' : d :: ds = [] → ∀ h : cur ≠ [], pyIsSpace (cur.head h) = false :=
      fun hx => absurd hx (by simp)
    obtain ⟨hstrip, hnil⟩ := ih (singleSpaced_tail hss) h3' h4 h5' f hf
    exact ⟨hstrip, fun hfe => absurd (hnil hfe).2 (by simp)⟩
  | case3 skip cur c cs hcond1 hcond2 ih =>
    intro hss h3 h4 h5 f hf
    cases cs with
    | nil => exact absurd hcond2 (by simp)
    | cons d ds =>
      obtain ⟨hterm, hd⟩ : isTerminator c = true ∧ pyIsSpace d = true := by
        simpa using hcond2
      rw [splitAux.eq_2, if_neg hcond1,
        if_pos (show (isTerminator c && pyIsSpace d) = true by simp [hterm, hd])] at hf
      rcases List.mem_cons.mp hf with hfe | hfm
      · subst hfe
        constructor
        · apply strip_reverse_noop
          · intro hne
            rw [List.head_cons]
            exact term_not_space hterm
          · intro hne
            by_cases hc0 : cur = []
            · subst hc0
              rw [List.getLast_singleton]
              exact term_not_space hterm
            · rw [List.getLast_cons hc0]
              exact h4 hc0
        · intro hfe2
          exact absurd hfe2 (by simp)
      · have h3' : ([] : List Char) = [] → true = false →
            ∀ e es, d :: ds = e :: es → pyIsSpace e = false :=
          fun _ hx => absurd hx (by simp)
        have h4' : ∀ h : ([] : List Char) ≠ [], pyIsSpace (([] : List Char).getLast h) = false :=
          fun h => absurd rfl h
        have h5' : d :: ds = [] → ∀ h : ([] : List Char) ≠ [],
            pyIsSpace (([] : List Char).head h) = false :=
          fun hx => absurd hx (by simp)
        obtain ⟨hstrip, hnil⟩ := ih (singleSpaced_tail hss) h3' h4' h5' f hfm
        exact ⟨hstrip, fun hfe => absurd (hnil hfe).2 (by simp)⟩
  | case4 skip cur c cs hcond1 hcond2 ih =>
    intro hss h3 h4 h5 f hf
    have hc0 : cur = [] → pyIsSpace c = false := by
      intro hcur
      by_cases hsk : skip = true
      · rcases Bool.eq_false_or_eq_true (pyIsSpace c) with ht' | hf'
        · exact absurd (by simp [hsk, ht']) hcond1
        · exact hf'
      · have hsf : skip = false := by
          rcases Bool.eq_false_or_eq_true skip with ht' | hf'
          · exact absurd ht' hsk
          · exact hf'
        exact h3 hcur hsf c cs rfl
    have h3' : c :: cur = [] → false = false → ∀ e es, cs = e :: es → pyIsSpace e = false :=
      fun hx => absurd hx (by simp)
    have h4' : ∀ h : (c :: cur) ≠ [], pyIsSpace ((c :: cur).getLast h) = false := by
      intro h
      by_cases hcur : cur = []
      · subst hcur
        rw [List.getLast_singleton]
        exact hc0 rfl
      · rw [List.getLast_cons hcur]
        exact h4 hcur
    have h5' : cs = [] → ∀ h : (c :: cur) ≠ [], pyIsSpace ((c :: cur).head h) = false := by
      intro hcs h
      rw [List.head_cons]
      subst hcs
      exact singleSpaced_single hss
    cases cs with
    | nil =>
      rw [splitAux.eq_3, if_neg hcond1,
        if_neg (show ¬ (isTerminator c && false) = true by simp)] at hf
      obtain ⟨hstrip, hnil⟩ := ih (singleSpaced_tail hss) h3' h4' h5' f hf
      exact ⟨hstrip, fun hfe => absurd (hnil hfe).1 (by simp)⟩
    | cons d ds =>
      have hnd : ¬ (isTerminator c && pyIsSpace d) = true := fun hx => hcond2 hx
      rw [splitAux.eq_2, if_neg hcond1, if_neg hnd] at hf
      obtain ⟨hstrip, hnil⟩ := ih (singleSpaced_tail hss) h3' h4' h5' f hf
      exact ⟨hstrip, fun hfe => absurd (hnil hfe).1 (by simp)⟩

lemma mk_ne_empty {f : List Char} (h : f ≠ []) : String.mk f ≠ "" :=
  fun he => h (congrArg String.data he)

/-- **C5**: on normalized text `split_sentences` returns no
empty-string element and the space-join of its result reproduces the
input exactly (hence up to whitespace normalization); on empty input
it returns the empty sequence. -/
theorem split_sentences_round_trip (t : String) (h : normalizedText t = true) :
    (∀ s ∈ split_sentences t, s ≠ "") ∧
    String.intercalate " " (split_sentences t) = t ∧
    split_sentences "" = [] := by
  obtain ⟨hss, hlead⟩ : singleSpaced t.data = true ∧
      (match t.data with | c :: _ => !pyIsSpace c | [] => true) = true := by
    simpa [normalizedText] using h
  refine ⟨?_, ?_, rfl⟩
  · intro s hs
    have := (List.mem_filter.mp hs).2
    simpa using this
  · by_cases ht : t.data = []
    · have ht' : t = "" := String.ext ht
      rw [ht']
      rfl
    · have h3 : ([] : List Char) = [] → false = false →
          ∀ c cs, t.data = c :: cs → pyIsSpace c = false := by
        intro _ _ c cs hcs
        rw [hcs] at hlead
        simpa using hlead
      have h4 : ∀ hne : ([] : List Char) ≠ [],
          pyIsSpace (([] : List Char).getLast hne) = false :=
        fun hne => absurd rfl hne
      have h5 : t.data = [] → ∀ hne : ([] : List Char) ≠ [],
          pyIsSpace (([] : List Char).head hne) = false :=
        fun hx => absurd hx ht
      have hfr := splitAux_frags false [] t.data hss h3 h4 h5
      have hmap : split_sentences t =
          (splitAux false [] t.data).map (fun f => String.mk f) := by
        unfold split_sentences
        rw [List.map_congr_left (fun f hf => by rw [(hfr f hf).1])]
        apply List.filter_eq_self.mpr
        intro s hs
        rw [List.mem_map] at hs
        obtain ⟨f, hf, hfs⟩ := hs
        have hfne : f ≠ [] := fun hfe => absurd ((hfr f hf).2 hfe).2 ht
        subst hfs
        simpa using mk_ne_empty hfne
      apply String.ext
      rw [hmap, intercalate_space_data, List.map_map]
      have hcomp : String.data ∘ (fun f => String.mk f) = id := rfl
      rw [hcomp, List.map_id]
      rw [joinSp_splitAux false [] t.data hss]
      simp

/-- Witness for C5 at a concrete normalized text. -/
theorem split_sentences_round_trip_witness :
    (∀ s ∈ split_sentences "Cats sleep. Dogs bark!", s ≠ "") ∧
    String.intercalate " " (split_sentences "Cats sleep. Dogs bark!") =
      "Cats sleep. Dogs bark!" ∧
    split_sentences "" = [] :=
  split_sentences_round_trip "Cats sleep. Dogs bark!" (by decide)

end Scraper
